import Mathlib

/-!
Verification of the derived-metrics and classification logic of the
vayapari back-office dashboard (inventory stock classification, dead-stock
detection, category-value aggregation, order normalization, customer
aggregation, and table sorting), shallowly embedded from the TypeScript
components `InventoryManagement.tsx` and `OrderManagement.tsx`.

Modelling conventions:
- JavaScript numbers are modelled as exact rationals (`ℚ`); quantities and
  thresholds, which the spec constrains to non-negative integers, as `ℕ`.
- A JavaScript `Date` value is either a valid timestamp (milliseconds since
  the epoch, as `ℤ`) or an invalid date (`NaN`); comparisons against an
  invalid date are `false`, as in JavaScript.
- Optional / possibly-absent record fields are `Option`s; the JavaScript
  truthiness idioms `x || 0`, `x || "default"` are modelled by explicit
  helper functions (`0` and `""` are falsy).
- `Array.prototype.sort` with a consistent comparator is required by
  ECMAScript 2019+ to be a stable sort; any stable sort has the same
  observable behaviour, so it is modelled by Mathlib's `List.insertionSort`
  (which is stable) applied to the relation `comparator a b ≤ 0`.
-/

namespace Vayapari

/-! ### JavaScript-semantics helpers -/

/-- JavaScript `x || 0` on a (non-`NaN`) number: `0` is falsy. -/
def jsOrZeroQ (x : ℚ) : ℚ := if x = 0 then 0 else x

theorem jsOrZeroQ_eq (x : ℚ) : jsOrZeroQ x = x := by
  unfold jsOrZeroQ; split <;> simp_all

/-- JavaScript `x || 0` on an optional non-negative integer field
(`undefined` and `0` are falsy). -/
def jsOrZeroNat : Option ℕ → ℕ
  | none => 0
  | some n => if n = 0 then 0 else n

theorem jsOrZeroNat_eq (o : Option ℕ) : jsOrZeroNat o = o.getD 0 := by
  cases o with
  | none => rfl
  | some n => unfold jsOrZeroNat; split <;> simp_all

/-- JavaScript `s || dflt` on an optional string field: `undefined` and the
empty string are falsy. -/
def jsOrStr (o : Option String) (dflt : String) : String :=
  match o with
  | none => dflt
  | some s => if s = "" then dflt else s

/-- A JavaScript `Date` value: a valid millisecond timestamp or an invalid
date (`NaN`). -/
inductive DateV : Type
  | valid (t : ℤ)
  | nan
deriving DecidableEq, Repr

/-- JavaScript `<` on `Date` values: comparisons involving an invalid date
are `false`. -/
def jsLtDate : DateV → DateV → Bool
  | .valid x, .valid y => decide (x < y)
  | _, _ => false

/-- JavaScript `>` on `Date` values. -/
def jsGtDate (a b : DateV) : Bool := jsLtDate b a

/-! ### Inventory data model (`src/types`: `InventoryItem`) -/

/-- The stock-status classification values. -/
inductive StockStatus : Type
  | inStock
  | lowStock
  | outOfStock
deriving DecidableEq, Repr

/-- `InventoryItem` from the repository's type declarations: `category`,
`lowStockThreshold`, `lastSoldDate` and `createdAt` are optional.  The date
fields hold the parse result of the stored string (`none` models an absent
or empty string, which is falsy; `some .nan` a present but unparseable
one). -/
structure InventoryItem : Type where
  itemName : String
  category : Option String
  quantity : ℕ
  costPrice : ℚ
  sellingPrice : ℚ
  lowStockThreshold : Option ℕ
  lastSoldDate : Option DateV
  createdAt : Option DateV
deriving DecidableEq

/-- `getItemStatus` (`InventoryManagement.tsx` lines 1282-1286):
`quantity === 0` gives out-of-stock, else `quantity <= (lowStockThreshold
|| 0)` gives low-stock, else in-stock. -/
def getItemStatus (item : InventoryItem) : StockStatus :=
  if item.quantity = 0 then .outOfStock
  else if item.quantity ≤ jsOrZeroNat item.lowStockThreshold then .lowStock
  else .inStock

/-- C1: the derived stockStatus is decided by the first matching rule in
priority order: quantity = 0 yields out-of-stock (regardless of the
threshold); otherwise quantity ≤ lowStockThreshold (defaulted to 0) yields
low-stock; otherwise in-stock.  The classifier is a total function. -/
theorem stockStatus_classification (item : InventoryItem) :
    (getItemStatus item = .outOfStock ↔ item.quantity = 0) ∧
    (getItemStatus item = .lowStock ↔
      item.quantity ≠ 0 ∧ item.quantity ≤ item.lowStockThreshold.getD 0) ∧
    (getItemStatus item = .inStock ↔
      item.quantity ≠ 0 ∧ item.lowStockThreshold.getD 0 < item.quantity) := by
  unfold getItemStatus
  rw [jsOrZeroNat_eq]
  by_cases h0 : item.quantity = 0
  · simp [h0]
  · by_cases hle : item.quantity ≤ item.lowStockThreshold.getD 0
    · simp only [if_neg h0, if_pos hle]
      refine ⟨by simp [h0], by simp [h0, hle], by simp [h0]; omega⟩
    · simp only [if_neg h0, if_neg hle]
      refine ⟨by simp [h0], by simp [h0, hle], by simp [h0]; omega⟩

/-! ### Dead-stock detection (`InventoryManagement.tsx` lines 1387-1426) -/

/-- Milliseconds in one day (`1000 * 60 * 60 * 24`). -/
def msPerDay : ℤ := 1000 * 60 * 60 * 24

/-- `ninetyDaysAgo = new Date(currentDate.getTime() - 90*24*60*60*1000)`. -/
def cutoffMs (now : ℤ) : ℤ := now - 90 * 24 * 60 * 60 * 1000

/-- The dead-stock filter predicate (`InventoryManagement.tsx` lines
1391-1407): requires a present `createdAt` not newer than the 90-day
cutoff, and then either no `lastSoldDate` or one strictly older than the
cutoff. -/
def deadStockFilter (now : ℤ) (item : InventoryItem) : Bool :=
  match item.createdAt with
  | none => false
  | some c =>
    if jsGtDate c (.valid (cutoffMs now)) then false
    else
      match item.lastSoldDate with
      | none => true
      | some l => jsLtDate l (.valid (cutoffMs now))

/-- JavaScript `a || b` on optional date fields (an absent or empty date
string is falsy). -/
def jsOrDate (a b : Option DateV) : Option DateV :=
  match a with
  | some x => some x
  | none => b

/-- `daysSinceLastSold` (`InventoryManagement.tsx` lines 1411-1423): the
reference date is `lastSoldDate || createdAt`; `null` when both are
missing or the chosen one is unparseable, else
`Math.floor((now - ref) / (1000*60*60*24))`. -/
def daysSinceLastSold (item : InventoryItem) (now : ℤ) : Option ℤ :=
  match jsOrDate item.lastSoldDate item.createdAt with
  | none => none
  | some .nan => none
  | some (.valid t) => some ((now - t).fdiv msPerDay)

/-- One element of the `deadStockItems` array: the item decorated with the
two derived fields. -/
structure DeadStockItem : Type where
  item : InventoryItem
  daysSinceLastSold : Option ℤ
  deadStockValue : ℚ
deriving DecidableEq

/-- `deadStockItems` (`InventoryManagement.tsx` lines 1387-1426): filter by
`deadStockFilter`, then attach `daysSinceLastSold` and
`deadStockValue = quantity * (costPrice || 0)`. -/
def deadStockItems (now : ℤ) (items : List InventoryItem) : List DeadStockItem :=
  (items.filter (deadStockFilter now)).map fun item =>
    { item := item
      daysSinceLastSold := daysSinceLastSold item now
      deadStockValue := (item.quantity : ℚ) * jsOrZeroQ item.costPrice }

/-- C2: for items whose present date fields are parseable, the detector
classifies an item as dead stock exactly when `createdAt` is present and
not newer than the cutoff `now - 90 days`, and either `lastSoldDate` is
absent or `lastSoldDate < cutoff`; an item with missing `createdAt` is
never dead stock, and an item created after the cutoff is never dead stock
regardless of its sales history. -/
theorem deadStock_classification (item : InventoryItem) (now : ℤ)
    (hc : ∀ d, item.createdAt = some d → ∃ t, d = DateV.valid t)
    (hl : ∀ d, item.lastSoldDate = some d → ∃ t, d = DateV.valid t) :
    (deadStockFilter now item = true ↔
      ∃ tc, item.createdAt = some (.valid tc) ∧ tc ≤ cutoffMs now ∧
        (item.lastSoldDate = none ∨
          ∃ tl, item.lastSoldDate = some (.valid tl) ∧ tl < cutoffMs now)) ∧
    (item.createdAt = none → deadStockFilter now item = false) ∧
    (∀ tc, item.createdAt = some (.valid tc) → cutoffMs now < tc →
      deadStockFilter now item = false) := by
  refine ⟨?_, ?_, ?_⟩
  · cases hcr : item.createdAt with
    | none => simp [deadStockFilter, hcr]
    | some c =>
      obtain ⟨tc, rfl⟩ := hc c hcr
      cases hlr : item.lastSoldDate with
      | none =>
        by_cases hgt : cutoffMs now < tc <;>
          simp [deadStockFilter, hcr, hlr, jsGtDate, jsLtDate, hgt] <;> omega
      | some l =>
        obtain ⟨tl, rfl⟩ := hl l hlr
        by_cases hgt : cutoffMs now < tc <;>
          simp [deadStockFilter, hcr, hlr, jsGtDate, jsLtDate, hgt] <;> omega
  · intro h
    simp [deadStockFilter, h]
  · intro tc hcr hgt
    simp [deadStockFilter, hcr, jsGtDate, jsLtDate, hgt]

/-- Reference instant 2024-06-01T00:00:00Z in epoch milliseconds. -/
def exNow : ℤ := 1717200000000

/-- An item created 2024-01-01T00:00:00Z (epoch ms 1704067200000) and never
sold. -/
def exDeadItem : InventoryItem :=
  { itemName := "Old Widget"
    category := some "Misc"
    quantity := 4
    costPrice := 25
    sellingPrice := 40
    lowStockThreshold := some 2
    lastSoldDate := none
    createdAt := some (.valid 1704067200000) }

/-- The same item, but last sold 2023-12-01T00:00:00Z (epoch ms
1701388800000), earlier than its `createdAt`. -/
def exDeadItemSoldEarlier : InventoryItem :=
  { exDeadItem with lastSoldDate := some (.valid 1701388800000) }

/-- An item whose stored `createdAt` string is present but unparseable
(`new Date(...)` yields an invalid date), and never sold. -/
def exDeadItemNanCreated : InventoryItem :=
  { exDeadItem with createdAt := some .nan }

/-- Witness for C2: the 2024-01-01 item, never sold, is classified dead
stock on 2024-06-01. -/
theorem deadStock_classification_witness :
    deadStockFilter exNow exDeadItem = true := by
  have h := deadStock_classification exDeadItem exNow
    (by intro d hd; injection hd with h; exact ⟨_, h.symm⟩)
    (by intro d hd; exact absurd hd (by simp [exDeadItem]))
  exact h.1.mpr ⟨1704067200000, rfl, by decide, Or.inl rfl⟩

/-- Stated from the spec's words, for comparison with the code's
`daysSinceLastSold`: whole days between `now` and the LATER of
`lastSoldDate` and `createdAt`, with a null sentinel when the reference
date is missing or unparseable. -/
def daysSinceLastSoldSpec (item : InventoryItem) (now : ℤ) : Option ℤ :=
  match item.lastSoldDate, item.createdAt with
  | some (.valid a), some (.valid b) => some ((now - max a b).fdiv msPerDay)
  | some (.valid a), none => some ((now - a).fdiv msPerDay)
  | none, some (.valid b) => some ((now - b).fdiv msPerDay)
  | _, _ => none

/-- Counterexample to C7.  First, an item last sold 2023-12-01 but created
2024-01-01 is dead stock on 2024-06-01, and the code derives
`daysSinceLastSold = 183` from `lastSoldDate` alone, not `152` from the
later of the two dates as the claim states.  Second, for the claim's own
concrete instance (createdAt 2024-01-01, never sold, now 2024-06-01) the
whole-day difference is `152`, not the claimed `151`. -/
theorem daysSinceLastSold_counterexample :
    deadStockFilter exNow exDeadItemSoldEarlier = true ∧
    daysSinceLastSold exDeadItemSoldEarlier exNow = some 183 ∧
    daysSinceLastSoldSpec exDeadItemSoldEarlier exNow = some 152 ∧
    some (183 : ℤ) ≠ some 152 ∧
    deadStockFilter exNow exDeadItem = true ∧
    daysSinceLastSold exDeadItem exNow = some 152 ∧
    some (152 : ℤ) ≠ some 151 := by
  refine ⟨by decide, by decide, by decide, by decide, by decide, by decide, by decide⟩

/-- C7 as amended: for every item in the dead-stock list,
`daysSinceLastSold` is the whole number of days between `now` and
`lastSoldDate` when present, else `createdAt`; when the chosen reference
date is missing or unparseable the computation yields the null sentinel
instead.  For the concrete instance createdAt = 2024-01-01, lastSoldDate
absent, now = 2024-06-01, the item is dead stock with
`daysSinceLastSold = 152`; and a dead-stock item with an unparseable
`createdAt` and no sales yields the null sentinel. -/
theorem deadStock_daysSince_rule :
    (∀ (items : List InventoryItem) (now : ℤ) (d : DeadStockItem),
      d ∈ deadStockItems now items →
      (∀ t, d.item.lastSoldDate = some (.valid t) →
        d.daysSinceLastSold = some ((now - t).fdiv msPerDay)) ∧
      (d.item.lastSoldDate = none →
        ∀ t, d.item.createdAt = some (.valid t) →
        d.daysSinceLastSold = some ((now - t).fdiv msPerDay)) ∧
      ((jsOrDate d.item.lastSoldDate d.item.createdAt = none ∨
        jsOrDate d.item.lastSoldDate d.item.createdAt = some .nan) →
        d.daysSinceLastSold = none)) ∧
    (deadStockItems exNow [exDeadItem]).map (fun d => d.daysSinceLastSold) =
      [some 152] ∧
    (deadStockItems exNow [exDeadItemNanCreated]).map
      (fun d => d.daysSinceLastSold) = [none] := by
  refine ⟨?_, by decide, by decide⟩
  intro items now d hd
  simp only [deadStockItems, List.mem_map, List.mem_filter] at hd
  obtain ⟨i, ⟨-, -⟩, rfl⟩ := hd
  refine ⟨?_, ?_, ?_⟩
  · intro t ht
    have ht2 : i.lastSoldDate = some (.valid t) := ht
    simp [daysSinceLastSold, jsOrDate, ht2]
  · intro hnone t ht
    have hn2 : i.lastSoldDate = none := hnone
    have ht2 : i.createdAt = some (.valid t) := ht
    simp [daysSinceLastSold, jsOrDate, hn2, ht2]
  · intro h
    have h2 : jsOrDate i.lastSoldDate i.createdAt = none ∨
        jsOrDate i.lastSoldDate i.createdAt = some .nan := h
    show daysSinceLastSold i now = none
    unfold daysSinceLastSold
    rcases h2 with h2 | h2 <;> rw [h2]

/-- Witness for the amended C7 rule: applied to the item last sold
2023-12-01 with `now` 2024-06-01, the rule gives the whole days from
`lastSoldDate`. -/
theorem deadStock_daysSince_rule_witness :
    daysSinceLastSold exDeadItemSoldEarlier exNow =
      some ((exNow - 1701388800000).fdiv msPerDay) := by
  have hmem : (⟨exDeadItemSoldEarlier,
      daysSinceLastSold exDeadItemSoldEarlier exNow,
      (exDeadItemSoldEarlier.quantity : ℚ) *
        jsOrZeroQ exDeadItemSoldEarlier.costPrice⟩ : DeadStockItem) ∈
      deadStockItems exNow [exDeadItemSoldEarlier] := by
    simp [deadStockItems,
      show deadStockFilter exNow exDeadItemSoldEarlier = true from by decide]
  exact (deadStock_daysSince_rule.1 [exDeadItemSoldEarlier] exNow _ hmem).1
    1701388800000 rfl

/-! ### Category-value aggregation (`InventoryManagement.tsx` lines
1340-1360 and 1378-1380) -/

/-- JavaScript `n || 0` on a (non-negative integer) number. -/
def jsOrZeroN (n : ℕ) : ℕ := if n = 0 then 0 else n

theorem jsOrZeroN_eq (n : ℕ) : jsOrZeroN n = n := by
  unfold jsOrZeroN; split <;> simp_all

/-- `acc[category] = (acc[category] || 0) + value` on a plain object,
whose string keys enumerate in insertion order: an existing key is updated
in place, a new key is appended. -/
def bumpCategory (acc : List (String × ℚ)) (cat : String) (v : ℚ) :
    List (String × ℚ) :=
  match acc with
  | [] => [(cat, v)]
  | (k, w) :: rest =>
    if k = cat then (k, w + v) :: rest else (k, w) :: bumpCategory rest cat v

/-- The per-item value used by the category fold:
`(item.quantity || 0) * (item.costPrice || 0)`. -/
def itemValue (item : InventoryItem) : ℚ :=
  (jsOrZeroN item.quantity : ℚ) * jsOrZeroQ item.costPrice

/-- The `categoryValues` reduce (`InventoryManagement.tsx` lines
1341-1346), grouping by `item.category || 'Uncategorized'`. -/
def categoryValues (items : List InventoryItem) : List (String × ℚ) :=
  items.foldl
    (fun acc item =>
      bumpCategory acc (jsOrStr item.category "Uncategorized") (itemValue item))
    []

/-- The comparator `(a, b) => b[1] - a[1]` admits `a` before `b` exactly
when `b[1] - a[1] <= 0`. -/
def catValGe (a b : String × ℚ) : Prop := b.2 ≤ a.2

instance : DecidableRel catValGe := fun a b => inferInstanceAs (Decidable (b.2 ≤ a.2))

instance : IsTotal (String × ℚ) catValGe := ⟨fun a b => le_total b.2 a.2⟩

instance : IsTrans (String × ℚ) catValGe :=
  ⟨fun _ _ _ hab hbc => le_trans hbc hab⟩

/-- `Object.entries(categoryValues).sort((a, b) => b[1] - a[1])`: a stable
sort by value descending. -/
def sortedCategories (items : List InventoryItem) : List (String × ℚ) :=
  List.insertionSort catValGe (categoryValues items)

/-- `categoryValueData` (`InventoryManagement.tsx` lines 1340-1360): the
top five categories by value, plus an `Other` bucket holding the summed
remainder when that sum is positive. -/
def categoryValueData (items : List InventoryItem) : List (String × ℚ) :=
  let sorted := sortedCategories items
  let top5 := sorted.take 5
  let otherValue : ℚ := (sorted.drop 5).foldl (fun sum p => sum + p.2) 0
  top5 ++ (if otherValue > 0 then [("Other", otherValue)] else [])

/-- `totalInventoryValue` (`InventoryManagement.tsx` lines 1378-1380):
`items.reduce((total, item) => total + (item.quantity * (item.costPrice || 0)), 0)`. -/
def totalInventoryValue (items : List InventoryItem) : ℚ :=
  items.foldl
    (fun total item => total + (item.quantity : ℚ) * jsOrZeroQ item.costPrice) 0

theorem bumpCategory_sum (acc : List (String × ℚ)) (cat : String) (v : ℚ) :
    ((bumpCategory acc cat v).map Prod.snd).sum = ((acc.map Prod.snd)).sum + v := by
  induction acc with
  | nil => simp [bumpCategory]
  | cons p rest ih =>
    obtain ⟨k, w⟩ := p
    unfold bumpCategory
    split
    · simp; ring
    · simp [ih]; ring

theorem bumpCategory_nonneg (acc : List (String × ℚ)) (cat : String) (v : ℚ)
    (hacc : ∀ p ∈ acc, 0 ≤ p.2) (hv : 0 ≤ v) :
    ∀ p ∈ bumpCategory acc cat v, 0 ≤ p.2 := by
  induction acc with
  | nil =>
    intro p hp
    simp [bumpCategory] at hp
    simp [hp, hv]
  | cons q rest ih =>
    obtain ⟨k, w⟩ := q
    intro p hp
    unfold bumpCategory at hp
    split at hp
    · rcases List.mem_cons.mp hp with rfl | hp
      · have hw : (0:ℚ) ≤ w := hacc (k, w) (List.mem_cons_self _ _)
        simpa using add_nonneg hw hv
      · exact hacc p (List.mem_cons_of_mem _ hp)
    · rcases List.mem_cons.mp hp with rfl | hp
      · exact hacc (k, w) (List.mem_cons_self _ _)
      · exact ih (fun q hq => hacc q (List.mem_cons_of_mem _ hq)) p hp

theorem categoryValues_fold_sum (items : List InventoryItem)
    (acc : List (String × ℚ)) :
    ((items.foldl
        (fun acc item =>
          bumpCategory acc (jsOrStr item.category "Uncategorized")
            (itemValue item)) acc).map Prod.snd).sum =
      (acc.map Prod.snd).sum + (items.map itemValue).sum := by
  induction items generalizing acc with
  | nil => simp
  | cons item rest ih =>
    simp only [List.foldl_cons, List.map_cons, List.sum_cons]
    rw [ih, bumpCategory_sum]
    ring

theorem categoryValues_sum (items : List InventoryItem) :
    ((categoryValues items).map Prod.snd).sum = (items.map itemValue).sum := by
  simpa using categoryValues_fold_sum items []

theorem categoryValues_fold_nonneg :
    ∀ (items : List InventoryItem) (acc : List (String × ℚ)),
    (∀ i ∈ items, 0 ≤ i.costPrice) →
    (∀ p ∈ acc, 0 ≤ p.2) →
    ∀ p ∈ items.foldl
        (fun acc item =>
          bumpCategory acc (jsOrStr item.category "Uncategorized")
            (itemValue item)) acc, 0 ≤ p.2 := by
  intro items
  induction items with
  | nil =>
    intro acc _ hacc
    simpa using hacc
  | cons item rest ih =>
    intro acc hitems hacc
    simp only [List.foldl_cons]
    refine ih _ (fun i hi => hitems i (List.mem_cons_of_mem _ hi)) ?_
    refine bumpCategory_nonneg _ _ _ hacc ?_
    have hc : 0 ≤ item.costPrice := hitems item (List.mem_cons_self _ _)
    unfold itemValue
    rw [jsOrZeroQ_eq]
    positivity

theorem totalInventoryValue_eq (items : List InventoryItem) :
    totalInventoryValue items = (items.map itemValue).sum := by
  unfold totalInventoryValue
  have h : ∀ (c : ℚ), items.foldl
      (fun total item => total + (item.quantity : ℚ) * jsOrZeroQ item.costPrice) c =
      c + (items.map itemValue).sum := by
    induction items with
    | nil => simp
    | cons item rest ih =>
      intro c
      simp only [List.foldl_cons, List.map_cons, List.sum_cons, ih]
      unfold itemValue
      rw [jsOrZeroN_eq]
      ring
  simpa using h 0

theorem foldl_add_snd (l : List (String × ℚ)) (c : ℚ) :
    l.foldl (fun sum p => sum + p.2) c = c + (l.map Prod.snd).sum := by
  induction l generalizing c with
  | nil => simp
  | cons p rest ih =>
    simp only [List.foldl_cons, List.map_cons, List.sum_cons, ih]
    ring

/-- C6: the values emitted by the category-value fold (top five groups
plus the `Other` bucket when present) sum to exactly the total inventory
value, the sum of `quantity * costPrice` over all items; the top-K
truncation loses nothing since the remainder goes to `Other`, and the
arithmetic is exact. -/
theorem categoryValueData_sum_eq_total (items : List InventoryItem)
    (h : ∀ i ∈ items, 0 ≤ i.costPrice) :
    ((categoryValueData items).map Prod.snd).sum = totalInventoryValue items := by
  have hperm : List.Perm (sortedCategories items) (categoryValues items) :=
    List.perm_insertionSort _ _
  have hsum : ((sortedCategories items).map Prod.snd).sum =
      ((categoryValues items).map Prod.snd).sum :=
    (hperm.map Prod.snd).sum_eq
  have hnonneg : ∀ p ∈ sortedCategories items, 0 ≤ p.2 := by
    intro p hp
    exact categoryValues_fold_nonneg items [] h (by simp) p (hperm.subset hp)
  have hother : (0:ℚ) ≤
      (((sortedCategories items).drop 5).map Prod.snd).sum := by
    refine List.sum_nonneg ?_
    intro x hx
    obtain ⟨p, hp, rfl⟩ := List.mem_map.mp hx
    exact hnonneg p (List.drop_subset _ _ hp)
  simp only [categoryValueData]
  rw [foldl_add_snd, totalInventoryValue_eq, ← categoryValues_sum, ← hsum]
  have hsplit : ((List.take 5 (sortedCategories items)).map Prod.snd).sum +
      ((List.drop 5 (sortedCategories items)).map Prod.snd).sum =
      ((sortedCategories items).map Prod.snd).sum := by
    conv_rhs => rw [← List.take_append_drop 5 (sortedCategories items)]
    rw [List.map_append, List.sum_append]
  split
  · rw [List.map_append, List.sum_append]
    simp only [List.map_cons, List.map_nil, List.sum_cons, List.sum_nil]
    rw [← hsplit]
    ring
  · next hle =>
    have h0 : ((List.drop 5 (sortedCategories items)).map Prod.snd).sum = 0 := by
      have h1 : ((List.drop 5 (sortedCategories items)).map Prod.snd).sum ≤ 0 := by
        have := not_lt.mp hle
        linarith
      linarith
    rw [List.append_nil, ← hsplit, h0]
    ring

/-- The spec's worked aggregation example: items
`[{cat A, qty 2, cost 10}, {cat B, qty 1, cost 5}]`. -/
def exAggItems : List InventoryItem :=
  [{ itemName := "a1", category := some "A", quantity := 2, costPrice := 10,
     sellingPrice := 15, lowStockThreshold := none, lastSoldDate := none,
     createdAt := none },
   { itemName := "b1", category := some "B", quantity := 1, costPrice := 5,
     sellingPrice := 8, lowStockThreshold := none, lastSoldDate := none,
     createdAt := none }]

/-- Witness for C6 at the spec's concrete example (total value 25). -/
theorem categoryValueData_sum_eq_total_witness :
    (∀ i ∈ exAggItems, 0 ≤ i.costPrice) ∧
    ((categoryValueData exAggItems).map Prod.snd).sum =
      totalInventoryValue exAggItems := by
  have hn : ∀ i ∈ exAggItems, 0 ≤ i.costPrice := by
    intro i hi
    simp only [exAggItems, List.mem_cons, List.not_mem_nil, or_false] at hi
    rcases hi with rfl | rfl <;> norm_num
  exact ⟨hn, categoryValueData_sum_eq_total exAggItems hn⟩

/-- Stated from the spec's words, for comparison with the code's sort: the
claimed ordering relation "value descending, ties broken by category name
ascending". -/
def catSpecRel (a b : String × ℚ) : Prop :=
  b.2 < a.2 ∨ (a.2 = b.2 ∧ a.1 ≤ b.1)

instance : DecidableRel catSpecRel := fun a b =>
  inferInstanceAs (Decidable (b.2 < a.2 ∨ (a.2 = b.2 ∧ a.1 ≤ b.1)))

instance : IsTotal (String × ℚ) catSpecRel := by
  constructor
  intro a b
  rcases lt_trichotomy a.2 b.2 with h | h | h
  · exact Or.inr (Or.inl h)
  · rcases le_total a.1 b.1 with hn | hn
    · exact Or.inl (Or.inr ⟨h, hn⟩)
    · exact Or.inr (Or.inr ⟨h.symm, hn⟩)
  · exact Or.inl (Or.inl h)

instance : IsTrans (String × ℚ) catSpecRel := by
  constructor
  intro a b c h1 h2
  rcases h1 with h1 | ⟨e1, n1⟩ <;> rcases h2 with h2 | ⟨e2, n2⟩
  · exact Or.inl (lt_trans h2 h1)
  · exact Or.inl (by rw [← e2]; exact h1)
  · exact Or.inl (by rw [e1]; exact h2)
  · exact Or.inr ⟨e1.trans e2, le_trans n1 n2⟩

/-- The category sort as the spec words it (secondary key name
ascending). -/
def sortedCategoriesSpec (items : List InventoryItem) : List (String × ℚ) :=
  List.insertionSort catSpecRel (categoryValues items)

/-- The category-value fold as the spec words it: identical to
`categoryValueData` except for the tie-breaking sort. -/
def categoryValueDataSpec (items : List InventoryItem) : List (String × ℚ) :=
  let sorted := sortedCategoriesSpec items
  let top5 := sorted.take 5
  let otherValue : ℚ := (sorted.drop 5).foldl (fun sum p => sum + p.2) 0
  top5 ++ (if otherValue > 0 then [("Other", otherValue)] else [])

/-- Six single-item categories; `B` (value 10) is encountered before `A`
(also value 10), and the tie falls exactly at the top-5 cutoff. -/
def mkCatItem (cat : String) (cost : ℚ) : InventoryItem :=
  { itemName := cat, category := some cat, quantity := 1, costPrice := cost,
    sellingPrice := cost, lowStockThreshold := none, lastSoldDate := none,
    createdAt := none }

def exTieItems : List InventoryItem :=
  [mkCatItem "C1" 100, mkCatItem "C2" 90, mkCatItem "C3" 80,
   mkCatItem "C4" 70, mkCatItem "B" 10, mkCatItem "A" 10]

/-- Counterexample to C8: the code's comparator `(a, b) => b[1] - a[1]`
has no secondary key; the stable sort keeps equal-valued categories in
first-encounter order, so `B` (encountered first) survives the top-5
cutoff while a name-ascending tiebreak would keep `A` instead. -/
theorem categoryTieBreak_counterexample :
    categoryValueData exTieItems =
      [("C1", 100), ("C2", 90), ("C3", 80), ("C4", 70), ("B", 10),
       ("Other", 10)] ∧
    categoryValueDataSpec exTieItems =
      [("C1", 100), ("C2", 90), ("C3", 80), ("C4", 70), ("A", 10),
       ("Other", 10)] ∧
    categoryValueData exTieItems ≠ categoryValueDataSpec exTieItems := by
  have hcode : categoryValueData exTieItems =
      [("C1", 100), ("C2", 90), ("C3", 80), ("C4", 70), ("B", 10),
       ("Other", 10)] := by
    norm_num +decide [categoryValueData, sortedCategories, categoryValues,
      bumpCategory, itemValue, jsOrStr, jsOrZeroN, jsOrZeroQ, exTieItems,
      mkCatItem, List.insertionSort, List.orderedInsert, catValGe]
  have hspec : categoryValueDataSpec exTieItems =
      [("C1", 100), ("C2", 90), ("C3", 80), ("C4", 70), ("A", 10),
       ("Other", 10)] := by
    norm_num +decide [categoryValueDataSpec, sortedCategoriesSpec,
      categoryValues, bumpCategory, itemValue, jsOrStr, jsOrZeroN, jsOrZeroQ,
      exTieItems, mkCatItem, List.insertionSort, List.orderedInsert,
      catSpecRel]
  refine ⟨hcode, hspec, ?_⟩
  rw [hcode, hspec]
  simp

/-- C8 as amended: the grouped categories are ordered by value
descending, and ties (anywhere, in particular at the top-5 cutoff) keep
their first-encounter order in the grouped entry list, because
`Array.prototype.sort` is stable and the comparator has no secondary key;
the output is deterministic given the encounter order of the input. -/
theorem categoryOrder_rule :
    (∀ items : List InventoryItem,
      (sortedCategories items).Pairwise (fun a b => b.2 ≤ a.2)) ∧
    (∀ (items : List InventoryItem) (c1 c2 : String × ℚ), c1.2 = c2.2 →
      List.Sublist [c1, c2] (categoryValues items) →
      List.Sublist [c1, c2] (sortedCategories items)) := by
  constructor
  · intro items
    exact List.sorted_insertionSort catValGe (categoryValues items)
  · intro items c1 c2 hv hsub
    exact List.pair_sublist_insertionSort (le_of_eq hv.symm) hsub

/-- Witness for the amended C8 rule: in the tie example, `B` stays before
`A` in the sorted category list. -/
theorem categoryOrder_rule_witness :
    List.Sublist [(("B":String), (10:ℚ)), ("A", 10)]
      (sortedCategories exTieItems) := by
  have hcv : categoryValues exTieItems =
      [("C1", 100), ("C2", 90), ("C3", 80), ("C4", 70), ("B", 10),
       ("A", 10)] := by
    norm_num +decide [categoryValues, bumpCategory, itemValue, jsOrStr,
      jsOrZeroN, jsOrZeroQ, exTieItems, mkCatItem]
  refine categoryOrder_rule.2 exTieItems ("B", 10) ("A", 10) rfl ?_
  rw [hcv]
  decide

/-! ### Order normalization (`OrderManagement.tsx` lines 25-58)

The item-description string is parsed with the JavaScript regular
expression `/^(\d+)\s+x\s+(.+)$/`.  Character classes are modelled on the
character repertoire the data actually uses: `\d` is `0`-`9`, `\s` is the
ASCII whitespace characters, and `.` is any character other than a line
terminator. -/

/-- The regex class `\d`. -/
def isDigitCh (c : Char) : Bool := '0' ≤ c && c ≤ '9'

/-- The regex class `\s` (ASCII portion). -/
def isWsCh (c : Char) : Bool :=
  c == ' ' || c == '\t' || c == '\n' || c == '\r' || c == '\x0b' || c == '\x0c'

/-- The regex class `.` (anything but a line terminator). -/
def isDotCh (c : Char) : Bool := !(c == '\n' || c == '\r')

/-- `String.prototype.trim()`: strip whitespace from both ends. -/
def jsTrimList (l : List Char) : List Char :=
  ((l.dropWhile isWsCh).reverse.dropWhile isWsCh).reverse

/-- `parseInt(digits, 10)` on a non-empty all-digit capture. -/
def parseDigits (d : List Char) : ℕ :=
  d.foldl (fun n c => n * 10 + (c.toNat - 48)) 0

/-- Matching of `\s+(.+)$` against the text after the literal `x`, with
the backtracking semantics of the JavaScript engine: `\s+` takes the
longest whitespace prefix that still leaves a non-empty remainder of
non-terminator characters for `(.+)`. -/
def splitTail (t : List Char) : Option (List Char) :=
  let w := t.takeWhile isWsCh
  let rr := t.dropWhile isWsCh
  if w.isEmpty then none
  else if rr.isEmpty then
    match t.getLast? with
    | some c => if 2 ≤ t.length ∧ isDotCh c then some [c] else none
    | none => none
  else if rr.all isDotCh then some rr else none

/-- `itemString.match(/^(\d+)\s+x\s+(.+)$/)`: `some (d, r)` holds the two
capture groups on a match, `none` means no match. -/
def matchItem (s : List Char) : Option (List Char × List Char) :=
  let d := s.takeWhile isDigitCh
  let s1 := s.dropWhile isDigitCh
  if d.isEmpty then none
  else
    let w1 := s1.takeWhile isWsCh
    let s2 := s1.dropWhile isWsCh
    if w1.isEmpty then none
    else
      match s2 with
      | [] => none
      | c :: t => if c = 'x' then (splitTail t).map (fun r => (d, r)) else none

/-- The declarative reading of a match of `^(\d+)\s+x\s+(.+)$` against
`s`, with capture groups `d` and `r`: some decomposition into a non-empty
digit run, whitespace, the literal `x`, whitespace, and a non-empty
terminator-free remainder. -/
def SpecMatch (s d w1 w2 r : List Char) : Prop :=
  d ≠ [] ∧ (∀ c ∈ d, isDigitCh c = true) ∧
  w1 ≠ [] ∧ (∀ c ∈ w1, isWsCh c = true) ∧
  w2 ≠ [] ∧ (∀ c ∈ w2, isWsCh c = true) ∧
  r ≠ [] ∧ (∀ c ∈ r, isDotCh c = true) ∧
  s = d ++ w1 ++ 'x' :: (w2 ++ r)

instance (s d w1 w2 r : List Char) : Decidable (SpecMatch s d w1 w2 r) := by
  unfold SpecMatch
  infer_instance

/-- A raw order record as consumed by `fetchAndSetOrders`: the `items`
field may be absent, `amount` and `rate` are numbers. -/
structure RawOrder : Type where
  items : Option String
  amount : ℚ
  rate : ℚ
deriving DecidableEq

/-- A JavaScript number outcome: finite (exact value), an infinity, or
`NaN`. -/
inductive JSNum : Type
  | fin (q : ℚ)
  | inf
  | negInf
  | nan
deriving DecidableEq, Repr

def JSNum.isFinite : JSNum → Bool
  | .fin _ => true
  | _ => false

/-- JavaScript division restricted to finite operands: division by zero
produces `Infinity`, `-Infinity` or `NaN` by the sign of the dividend. -/
def jsDiv : JSNum → JSNum → JSNum
  | .fin a, .fin b =>
    if b = 0 then (if a = 0 then .nan else if 0 < a then .inf else .negInf)
    else .fin (a / b)
  | _, _ => .nan

/-- The single normalized line item (`name`, `quantity`, `price`). -/
structure NormOrderItem : Type where
  itemName : String
  quantity : ℕ
  price : JSNum
deriving DecidableEq

/-- The quantity/name parse of `fetchAndSetOrders` (`OrderManagement.tsx`
lines 30-38): on a regex match, `quantity = parseInt(match[1], 10)` and
`name = match[2].trim()`; otherwise `quantity = 1` and the string itself. -/
def parseItemString (s : String) : ℕ × String :=
  match matchItem s.toList with
  | some (d, r) => (parseDigits d, String.mk (jsTrimList r))
  | none => (1, s)

/-- The line-item normalization of `fetchAndSetOrders`
(`OrderManagement.tsx` lines 28-45): the item field defaults to
`'1 x unknown'` when falsy, and the unit price is
`order.amount / quantity` with no guard. -/
def normalizeOrderItems (o : RawOrder) : NormOrderItem :=
  let itemString := jsOrStr o.items "1 x unknown"
  let qn := parseItemString itemString
  { itemName := qn.2
    quantity := qn.1
    price := jsDiv (.fin o.amount) (.fin (qn.1 : ℚ)) }

theorem ws_not_digit {c : Char} (h : isWsCh c = true) : isDigitCh c = false := by
  simp only [isWsCh, Bool.or_eq_true, beq_iff_eq] at h
  rcases h with ((((rfl | rfl) | rfl) | rfl) | rfl) | rfl <;> decide

theorem takeWhile_of_append (p : Char → Bool) :
    ∀ (d rest : List Char), (∀ c ∈ d, p c = true) →
      (∀ c, rest.head? = some c → p c = false) →
      (d ++ rest).takeWhile p = d ∧ (d ++ rest).dropWhile p = rest := by
  intro d
  induction d with
  | nil =>
    intro rest _ hrest
    cases rest with
    | nil => simp
    | cons c cs =>
      have hc := hrest c rfl
      simp [List.takeWhile_cons, List.dropWhile_cons, hc]
  | cons a d ih =>
    intro rest hall hrest
    have ha : p a = true := hall a (List.mem_cons_self _ _)
    have hrec := ih rest (fun c hc => hall c (List.mem_cons_of_mem _ hc)) hrest
    simp [List.takeWhile_cons, List.dropWhile_cons, ha, hrec.1, hrec.2]

theorem takeWhile_append_all (p : Char → Bool) :
    ∀ (l1 l2 : List Char), (∀ c ∈ l1, p c = true) →
      (l1 ++ l2).takeWhile p = l1 ++ l2.takeWhile p ∧
      (l1 ++ l2).dropWhile p = l2.dropWhile p := by
  intro l1
  induction l1 with
  | nil => intro l2 _; simp
  | cons a l1 ih =>
    intro l2 hall
    have ha : p a = true := hall a (List.mem_cons_self _ _)
    have hrec := ih l2 (fun c hc => hall c (List.mem_cons_of_mem _ hc))
    simp [List.takeWhile_cons, List.dropWhile_cons, ha, hrec.1, hrec.2]

theorem dropWhile_dropWhile (p : Char → Bool) (l : List Char) :
    (l.dropWhile p).dropWhile p = l.dropWhile p := by
  induction l with
  | nil => simp
  | cons c cs ih =>
    by_cases hc : p c = true
    · simp [List.dropWhile_cons, hc, ih]
    · simp only [Bool.not_eq_true] at hc
      simp [List.dropWhile_cons, hc]

theorem splitTail_of_parts (w2 r : List Char) (hw2 : w2 ≠ [])
    (hw2a : ∀ c ∈ w2, isWsCh c = true) (hr : r ≠ [])
    (hra : ∀ c ∈ r, isDotCh c = true) :
    ∃ r0, splitTail (w2 ++ r) = some r0 ∧ jsTrimList r0 = jsTrimList r := by
  obtain ⟨ht, hd⟩ := takeWhile_append_all isWsCh w2 r hw2a
  by_cases hrr : r.dropWhile isWsCh = []
  · -- every character of `r` is whitespace; backtracking leaves its last
    -- character for `(.+)`
    have hallws : ∀ c ∈ r, isWsCh c = true := List.dropWhile_eq_nil_iff.mp hrr
    have hlast : r.getLast hr ∈ r := List.getLast_mem hr
    refine ⟨[r.getLast hr], ?_, ?_⟩
    · have hglast : (w2 ++ r).getLast? = some (r.getLast hr) := by
        rw [List.getLast?_append_of_ne_nil w2 hr]
        exact List.getLast?_eq_getLast r hr
      have hlen : 2 ≤ (w2 ++ r).length := by
        rw [List.length_append]
        have h1 : 1 ≤ w2.length := List.length_pos.mpr hw2
        have h2 : 1 ≤ r.length := List.length_pos.mpr hr
        omega
      have h1 : (w2 ++ r).takeWhile isWsCh = w2 ++ r := by
        rw [ht]
        congr 1
        conv_rhs => rw [← List.takeWhile_append_dropWhile isWsCh r]
        rw [hrr, List.append_nil]
      have h2 : (w2 ++ r).dropWhile isWsCh = [] := by rw [hd, hrr]
      have h1w : 1 ≤ w2.length := List.length_pos.mpr hw2
      have h1r : 1 ≤ r.length := List.length_pos.mpr hr
      unfold splitTail
      simp only [h1, h2, hglast]
      simp [List.isEmpty_iff, hw2, hra _ hlast] <;> omega
    · have hwg : isWsCh (r.getLast hr) = true := hallws _ hlast
      simp [jsTrimList, List.dropWhile_cons, hwg, hrr]
  · refine ⟨r.dropWhile isWsCh, ?_, ?_⟩
    · have hall : (r.dropWhile isWsCh).all isDotCh = true := by
        rw [List.all_eq_true]
        intro c hc
        exact hra c ((List.dropWhile_sublist _).subset hc)
      have hwne : w2 ++ r.takeWhile isWsCh ≠ [] := by simp [hw2]
      unfold splitTail
      rw [ht, hd]
      simp only [List.isEmpty_iff]
      rw [if_neg hwne, if_neg hrr, if_pos hall]
    · unfold jsTrimList
      rw [dropWhile_dropWhile]

theorem splitTail_some (t r0 : List Char) (h : splitTail t = some r0) :
    ∃ w2, w2 ≠ [] ∧ (∀ c ∈ w2, isWsCh c = true) ∧ r0 ≠ [] ∧
      (∀ c ∈ r0, isDotCh c = true) ∧ t = w2 ++ r0 := by
  unfold splitTail at h
  simp only [List.isEmpty_iff] at h
  by_cases hw : t.takeWhile isWsCh = []
  · rw [if_pos hw] at h
    exact absurd h (by simp)
  · rw [if_neg hw] at h
    by_cases hrr : t.dropWhile isWsCh = []
    · rw [if_pos hrr] at h
      have htne : t ≠ [] := by
        intro he
        rw [he] at hw
        exact hw rfl
      have hallws : ∀ c ∈ t, isWsCh c = true := List.dropWhile_eq_nil_iff.mp hrr
      rw [List.getLast?_eq_getLast t htne] at h
      have hif : (if 2 ≤ t.length ∧ isDotCh (t.getLast htne) = true
          then some [t.getLast htne] else none) = some r0 := h
      by_cases hcond : 2 ≤ t.length ∧ isDotCh (t.getLast htne) = true
      · rw [if_pos hcond] at hif
        obtain ⟨hlen, hdot⟩ := hcond
        have hr0 : r0 = [t.getLast htne] := by
          injection hif with h2
          exact h2.symm
        refine ⟨t.dropLast, ?_, ?_, ?_, ?_, ?_⟩
        · intro he
          have hl := List.length_dropLast t
          rw [he] at hl
          simp at hl
          omega
        · intro c hc
          exact hallws c ((List.dropLast_sublist t).subset hc)
        · rw [hr0]; simp
        · intro c hc
          rw [hr0] at hc
          simp at hc
          rw [hc]
          exact hdot
        · rw [hr0]
          exact (List.dropLast_append_getLast htne).symm
      · rw [if_neg hcond] at hif
        exact absurd hif (by simp)
    · rw [if_neg hrr] at h
      split at h
      · next hall =>
        have hr0 : r0 = t.dropWhile isWsCh := by
          injection h with h2
          exact h2.symm
        refine ⟨t.takeWhile isWsCh, hw, ?_, ?_, ?_, ?_⟩
        · intro c hc
          exact List.mem_takeWhile_imp hc
        · rw [hr0]; exact hrr
        · intro c hc
          rw [hr0] at hc
          rw [List.all_eq_true] at hall
          exact hall c hc
        · rw [hr0]
          exact (List.takeWhile_append_dropWhile isWsCh t).symm
      · exact absurd h (by simp)

theorem matchItem_of_specMatch (s d w1 w2 r : List Char)
    (hm : SpecMatch s d w1 w2 r) :
    ∃ r0, matchItem s = some (d, r0) ∧ jsTrimList r0 = jsTrimList r := by
  obtain ⟨hd, hda, hw1, hw1a, hw2, hw2a, hr, hra, hs⟩ := hm
  obtain ⟨a, w1t, rfl⟩ := List.exists_cons_of_ne_nil hw1
  have hsplit1 := takeWhile_of_append isDigitCh d ((a :: w1t) ++ 'x' :: (w2 ++ r))
    hda (by
      intro c hc
      simp only [List.cons_append, List.head?_cons, Option.some.injEq] at hc
      rw [← hc]
      exact ws_not_digit (hw1a a (List.mem_cons_self _ _)))
  have hsplit2 := takeWhile_of_append isWsCh (a :: w1t) ('x' :: (w2 ++ r))
    hw1a (by
      intro c hc
      simp only [List.head?_cons, Option.some.injEq] at hc
      rw [← hc]
      decide)
  obtain ⟨r0, hst, htrim⟩ := splitTail_of_parts w2 r hw2 hw2a hr hra
  refine ⟨r0, ?_, htrim⟩
  simp only [matchItem]
  rw [hs, List.append_assoc, hsplit1.1, hsplit1.2, hsplit2.1, hsplit2.2]
  simp [List.isEmpty_iff, hd, hst]

theorem matchItem_some (s d r0 : List Char) (h : matchItem s = some (d, r0)) :
    ∃ w1 w2, SpecMatch s d w1 w2 r0 := by
  unfold matchItem at h
  simp only [List.isEmpty_iff] at h
  by_cases hd : s.takeWhile isDigitCh = []
  · rw [if_pos hd] at h
    exact absurd h (by simp)
  · rw [if_neg hd] at h
    by_cases hw1 : (s.dropWhile isDigitCh).takeWhile isWsCh = []
    · rw [if_pos hw1] at h
      exact absurd h (by simp)
    · rw [if_neg hw1] at h
      cases hs2 : (s.dropWhile isDigitCh).dropWhile isWsCh with
      | nil =>
        rw [hs2] at h
        exact absurd h (by simp)
      | cons c t =>
        rw [hs2] at h
        have hif : (if c = 'x' then
            Option.map (fun r => (s.takeWhile isDigitCh, r)) (splitTail t)
            else none) = some (d, r0) := h
        by_cases hc : c = 'x'
        · rw [if_pos hc] at hif
          cases hst : splitTail t with
          | none =>
            rw [hst] at hif
            exact absurd hif (by simp)
          | some rr =>
            rw [hst] at hif
            simp at hif
            obtain ⟨hdd, hrr⟩ := hif
            obtain ⟨w2, hw2ne, hw2a, hr0ne, hr0a, ht⟩ := splitTail_some t rr hst
            refine ⟨(s.dropWhile isDigitCh).takeWhile isWsCh, w2,
              ?_, ?_, hw1, ?_, hw2ne, hw2a, ?_, ?_, ?_⟩
            · rw [← hdd]; exact hd
            · intro x hx
              rw [← hdd] at hx
              exact List.mem_takeWhile_imp hx
            · intro x hx
              exact List.mem_takeWhile_imp hx
            · rw [← hrr]; exact hr0ne
            · intro x hx
              rw [← hrr] at hx
              exact hr0a x hx
            · rw [← hdd, ← hrr, ← ht, ← hc, ← hs2, List.append_assoc]
              rw [List.takeWhile_append_dropWhile isWsCh]
              rw [List.takeWhile_append_dropWhile isDigitCh]
        · rw [if_neg hc] at hif
          exact absurd hif (by simp)

/-- An order whose item field is present but the empty string. -/
def exEmptyOrder : RawOrder := { items := some "", amount := 10, rate := 5 }

/-- Counterexample to C3: the empty string is falsy, so
`order.items || '1 x unknown'` replaces it before matching; the fallback
name is `"unknown"`, not the raw string `""` verbatim as the claim
requires for every string item field. -/
theorem orderNormalizer_counterexample :
    matchItem (String.toList "") = none ∧
    (normalizeOrderItems exEmptyOrder).itemName = "unknown" ∧
    (normalizeOrderItems exEmptyOrder).quantity = 1 ∧
    ("unknown" : String) ≠ "" := by
  refine ⟨by decide, by decide, by decide, by decide⟩

/-- C3 as amended: for every raw order whose item field is a NON-EMPTY
string `s`, if `s` matches `^(\d+)\s+x\s+(.+)$` (with capture groups `d`
and `r` of any witnessing decomposition) the normalized line item has
quantity `parseInt(d, 10)` and name `r.trim()`; if `s` does not match, the
normalizer falls back to quantity 1 and name `s` verbatim, and it never
throws.  When the field is absent or the empty string (both falsy) the
default `'1 x unknown'` is matched instead, yielding quantity 1 and name
`"unknown"`.  In particular `"3 x Denim Jeans"` yields quantity 3, name
`"Denim Jeans"`, and `"unknown"` yields quantity 1, name `"unknown"`. -/
theorem orderNormalizer_rule :
    (∀ (o : RawOrder) (s : String), o.items = some s → s ≠ "" →
      (∀ d w1 w2 r, SpecMatch s.toList d w1 w2 r →
        (normalizeOrderItems o).quantity = parseDigits d ∧
        (normalizeOrderItems o).itemName = String.mk (jsTrimList r)) ∧
      ((∀ d w1 w2 r, ¬ SpecMatch s.toList d w1 w2 r) →
        (normalizeOrderItems o).quantity = 1 ∧
        (normalizeOrderItems o).itemName = s)) ∧
    parseItemString "3 x Denim Jeans" = (3, "Denim Jeans") ∧
    parseItemString "unknown" = (1, "unknown") := by
  refine ⟨?_, by decide, by decide⟩
  intro o s ho hs
  have hitem : jsOrStr o.items "1 x unknown" = s := by
    rw [ho]
    simp [jsOrStr, hs]
  constructor
  · intro d w1 w2 r hm
    obtain ⟨r0, hmi, htrim⟩ := matchItem_of_specMatch s.toList d w1 w2 r hm
    have hmi2 : matchItem s.data = some (d, r0) := hmi
    constructor
    · simp [normalizeOrderItems, hitem, parseItemString, hmi2]
    · simp [normalizeOrderItems, hitem, parseItemString, hmi2, htrim]
  · intro hno
    cases hmi : matchItem s.toList with
    | some pr =>
      obtain ⟨d, r0⟩ := pr
      obtain ⟨w1, w2, hm⟩ := matchItem_some s.toList d r0 hmi
      exact absurd hm (hno d w1 w2 r0)
    | none =>
      have hmi2 : matchItem s.data = none := hmi
      constructor
      · simp [normalizeOrderItems, hitem, parseItemString, hmi2]
      · simp [normalizeOrderItems, hitem, parseItemString, hmi2]

/-- The spec's positive example order. -/
def exDenimOrder : RawOrder :=
  { items := some "3 x Denim Jeans", amount := 30, rate := 10 }

/-- Witness for the amended C3 rule at `"3 x Denim Jeans"`. -/
theorem orderNormalizer_rule_witness :
    (normalizeOrderItems exDenimOrder).quantity = parseDigits ['3'] ∧
    (normalizeOrderItems exDenimOrder).itemName =
      String.mk (jsTrimList (String.toList "Denim Jeans")) := by
  exact (orderNormalizer_rule.1 exDenimOrder "3 x Denim Jeans" rfl
    (by decide)).1 ['3'] [' '] [' '] (String.toList "Denim Jeans") (by decide)

/-- An order whose item string parses to quantity zero. -/
def exZeroQtyOrder : RawOrder :=
  { items := some "0 x Foo", amount := 10, rate := 5 }

/-- Counterexample to C4: the code computes `order.amount / quantity`
unconditionally (`OrderManagement.tsx` line 45); for the item string
`"0 x Foo"` the parsed quantity is 0, the division is performed, the
result is `Infinity` (not the order's `rate`), and the unit price is
non-finite. -/
theorem unitPrice_counterexample :
    (normalizeOrderItems exZeroQtyOrder).quantity = 0 ∧
    (normalizeOrderItems exZeroQtyOrder).price = JSNum.inf ∧
    JSNum.inf ≠ JSNum.fin exZeroQtyOrder.rate ∧
    (normalizeOrderItems exZeroQtyOrder).price.isFinite = false := by
  refine ⟨by decide, by decide, by decide, by decide⟩

/-- C4 as amended: the unit price is `totalAmount / quantity`
unconditionally.  When quantity > 0 it is the finite exact quotient; when
quantity = 0 the division is still performed and yields a non-finite
value (`Infinity` or `-Infinity` for a non-zero amount, `NaN` for amount
0); the order's `rate` field is never substituted. -/
theorem unitPrice_rule (o : RawOrder) :
    ((normalizeOrderItems o).quantity ≠ 0 →
      (normalizeOrderItems o).price =
        JSNum.fin (o.amount / ((normalizeOrderItems o).quantity : ℚ))) ∧
    ((normalizeOrderItems o).quantity = 0 → o.amount ≠ 0 →
      (normalizeOrderItems o).price.isFinite = false ∧
      ((normalizeOrderItems o).price = JSNum.inf ∨
        (normalizeOrderItems o).price = JSNum.negInf)) ∧
    ((normalizeOrderItems o).quantity = 0 → o.amount = 0 →
      (normalizeOrderItems o).price = JSNum.nan) := by
  have hp : (normalizeOrderItems o).price =
      jsDiv (.fin o.amount) (.fin ((normalizeOrderItems o).quantity : ℚ)) := rfl
  refine ⟨?_, ?_, ?_⟩
  · intro h
    have hcast : ((normalizeOrderItems o).quantity : ℚ) ≠ 0 :=
      Nat.cast_ne_zero.mpr h
    rw [hp]
    simp [jsDiv, hcast]
  · intro h0 ha
    rw [hp, h0]
    push_cast
    by_cases hpos : 0 < o.amount
    · simp [jsDiv, ha, hpos, JSNum.isFinite]
    · simp [jsDiv, ha, hpos, JSNum.isFinite]
  · intro h0 ha
    rw [hp, h0, ha]
    simp [jsDiv]

/-- Witness for the amended C4 rule at the zero-quantity order. -/
theorem unitPrice_rule_witness :
    (normalizeOrderItems exZeroQtyOrder).price.isFinite = false := by
  exact ((unitPrice_rule exZeroQtyOrder).2.1 (by decide) (by decide)).1

/-! ### Customer aggregation (`OrderManagement.tsx` lines 363-383) -/

theorem char_eq_of_toNat_eq {a b : Char} (h : a.toNat = b.toNat) : a = b :=
  Char.ext (UInt32.ext h)

theorem toNat_charOfNat (n : ℕ) (h : n < 55296) : (Char.ofNat n).toNat = n := by
  have hv : n.isValidChar := Or.inl h
  simp [Char.ofNat, Char.toNat, hv, Char.ofNatAux, UInt32.toNat, BitVec.toNat_ofNatLt]

theorem isWsCh_toNat (c : Char) :
    isWsCh c = true ↔ (c.toNat = 32 ∨ c.toNat = 9 ∨ c.toNat = 10 ∨
      c.toNat = 13 ∨ c.toNat = 11 ∨ c.toNat = 12) := by
  unfold isWsCh
  simp only [Bool.or_eq_true, beq_iff_eq]
  constructor
  · rintro (((((rfl | rfl) | rfl) | rfl) | rfl) | rfl) <;> decide
  · intro h
    rcases h with h | h | h | h | h | h
    · exact Or.inl (Or.inl (Or.inl (Or.inl (Or.inl
        (char_eq_of_toNat_eq (by rw [h]; rfl))))))
    · exact Or.inl (Or.inl (Or.inl (Or.inl (Or.inr
        (char_eq_of_toNat_eq (by rw [h]; rfl))))))
    · exact Or.inl (Or.inl (Or.inl (Or.inr
        (char_eq_of_toNat_eq (by rw [h]; rfl)))))
    · exact Or.inl (Or.inl (Or.inr (char_eq_of_toNat_eq (by rw [h]; rfl))))
    · exact Or.inl (Or.inr (char_eq_of_toNat_eq (by rw [h]; rfl)))
    · exact Or.inr (char_eq_of_toNat_eq (by rw [h]; rfl))

/-- Lowercasing a character never changes whether it is whitespace. -/
theorem isWsCh_toLower (c : Char) : isWsCh (Char.toLower c) = isWsCh c := by
  show isWsCh (if c.toNat ≥ 65 ∧ c.toNat ≤ 90 then Char.ofNat (c.toNat + 32)
    else c) = isWsCh c
  by_cases h : c.toNat ≥ 65 ∧ c.toNat ≤ 90
  · rw [if_pos h]
    have h1 : (Char.ofNat (c.toNat + 32)).toNat = c.toNat + 32 :=
      toNat_charOfNat _ (by omega)
    have hA : isWsCh (Char.ofNat (c.toNat + 32)) = false := by
      by_contra hcon
      rw [Bool.not_eq_false, isWsCh_toNat, h1] at hcon
      omega
    have hB : isWsCh c = false := by
      by_contra hcon
      rw [Bool.not_eq_false, isWsCh_toNat] at hcon
      omega
    rw [hA, hB]
  · rw [if_neg h]

theorem dropWhile_map_toLower (l : List Char) :
    (l.map Char.toLower).dropWhile isWsCh =
      (l.dropWhile isWsCh).map Char.toLower := by
  induction l with
  | nil => simp
  | cons c cs ih =>
    by_cases h : isWsCh c = true
    · simp [List.dropWhile_cons, isWsCh_toLower, h, ih]
    · simp only [Bool.not_eq_true] at h
      simp [List.dropWhile_cons, isWsCh_toLower, h]

theorem jsTrimList_map_toLower (l : List Char) :
    jsTrimList (l.map Char.toLower) = (jsTrimList l).map Char.toLower := by
  unfold jsTrimList
  rw [dropWhile_map_toLower, ← List.map_reverse, dropWhile_map_toLower,
    ← List.map_reverse]

/-- `String.prototype.toLowerCase()` (per-character lowering). -/
def jsLowerStr (s : String) : String := String.mk (s.toList.map Char.toLower)

/-- `String.prototype.trim()`. -/
def jsTrimStr (s : String) : String := String.mk (jsTrimList s.toList)

/-- The `Order` record as used by the summary statistics. -/
structure Order : Type where
  customerName : String
  customerPhone : String
  totalAmount : ℚ
deriving DecidableEq

/-- One value of the `customerMap`: `{ name, total }`. -/
structure CustomerEntry : Type where
  name : String
  total : ℚ
deriving DecidableEq

/-- The code's identity key
(`order.customerName.toLowerCase().trim() + ':' + order.customerPhone`). -/
def customerKey (o : Order) : String :=
  jsTrimStr (jsLowerStr o.customerName) ++ ":" ++ o.customerPhone

/-- The claim's identity key, `lowercase(trim(name)) + ':' + phone`. -/
def customerKeySpec (o : Order) : String :=
  jsLowerStr (jsTrimStr o.customerName) ++ ":" ++ o.customerPhone

/-- Trimming after lowercasing equals lowercasing after trimming, so the
code's key and the claim's key agree. -/
theorem customerKey_eq_spec (o : Order) : customerKey o = customerKeySpec o := by
  unfold customerKey customerKeySpec jsTrimStr jsLowerStr
  rw [show (String.mk (o.customerName.toList.map Char.toLower)).toList =
    o.customerName.toList.map Char.toLower from rfl]
  rw [jsTrimList_map_toLower]
  rfl

/-- `Map.prototype.set` semantics folded with the accumulation step: an
existing key keeps its position and display name and adds to its total; a
new key is appended with the order's name and amount. -/
def mapUpsert : List (String × CustomerEntry) → String → Order →
    List (String × CustomerEntry)
  | [], k, o => [(k, ⟨o.customerName, o.totalAmount⟩)]
  | (k2, e) :: rest, k, o =>
    if k2 = k then (k2, ⟨e.name, e.total + o.totalAmount⟩) :: rest
    else (k2, e) :: mapUpsert rest k o

/-- One step of the `customerMap` reduce (`OrderManagement.tsx` lines
363-377): orders without both a truthy name and phone are skipped. -/
def addOrderToMap (acc : List (String × CustomerEntry)) (o : Order) :
    List (String × CustomerEntry) :=
  if o.customerName ≠ "" ∧ o.customerPhone ≠ "" then
    mapUpsert acc (customerKey o) o
  else acc

/-- The full `customerMap` reduce, as an insertion-ordered association
list (JavaScript `Map` iterates in insertion order). -/
def customerMap (orders : List Order) : List (String × CustomerEntry) :=
  orders.foldl addOrderToMap []

/-- `Map.prototype.get`. -/
def mapLookup (k : String) : List (String × CustomerEntry) → Option CustomerEntry
  | [] => none
  | (k2, e) :: rest => if k2 = k then some e else mapLookup k rest

/-- The orders the claim says key `k` should aggregate: eligible orders
whose claim-formula key is `k`. -/
def ordersFor (k : String) (orders : List Order) : List Order :=
  orders.filter fun o =>
    decide (o.customerName ≠ "" ∧ o.customerPhone ≠ "" ∧ customerKeySpec o = k)

/-- The sum of `totalAmount` over a list of orders. -/
def sumAmounts (l : List Order) : ℚ := (l.map Order.totalAmount).sum

theorem mapLookup_upsert_ne (acc : List (String × CustomerEntry))
    (k k2 : String) (o : Order) (h : k2 ≠ k) :
    mapLookup k (mapUpsert acc k2 o) = mapLookup k acc := by
  induction acc with
  | nil => simp [mapUpsert, mapLookup, h]
  | cons p rest ih =>
    obtain ⟨k3, e⟩ := p
    unfold mapUpsert
    by_cases h3 : k3 = k2
    · rw [if_pos h3]
      unfold mapLookup
      rw [if_neg (by rw [h3]; exact h), if_neg (by rw [h3]; exact h)]
    · rw [if_neg h3]
      unfold mapLookup
      by_cases h4 : k3 = k
      · rw [if_pos h4, if_pos h4]
      · rw [if_neg h4, if_neg h4]
        exact ih

theorem mapLookup_upsert_self (acc : List (String × CustomerEntry))
    (k : String) (o : Order) :
    mapLookup k (mapUpsert acc k o) =
      match mapLookup k acc with
      | some e => some ⟨e.name, e.total + o.totalAmount⟩
      | none => some ⟨o.customerName, o.totalAmount⟩ := by
  induction acc with
  | nil => simp [mapUpsert, mapLookup]
  | cons p rest ih =>
    obtain ⟨k3, e⟩ := p
    unfold mapUpsert
    by_cases h3 : k3 = k
    · rw [if_pos h3]
      unfold mapLookup
      rw [if_pos h3, if_pos h3]
    · rw [if_neg h3]
      unfold mapLookup
      rw [if_neg h3, if_neg h3]
      exact ih

theorem customerMap_fold (orders : List Order) :
    ∀ (acc : List (String × CustomerEntry)) (k : String),
      mapLookup k (orders.foldl addOrderToMap acc) =
        match mapLookup k acc with
        | some e => some ⟨e.name, e.total + sumAmounts (ordersFor k orders)⟩
        | none =>
          match ordersFor k orders with
          | [] => none
          | o :: rest => some ⟨o.customerName, o.totalAmount + sumAmounts rest⟩ := by
  induction orders with
  | nil =>
    intro acc k
    cases h : mapLookup k acc with
    | none => simp [ordersFor, h]
    | some e => simp [ordersFor, sumAmounts, h]
  | cons o rest ih =>
    intro acc k
    rw [List.foldl_cons, ih]
    by_cases helig : o.customerName ≠ "" ∧ o.customerPhone ≠ ""
    · by_cases hkey : customerKeySpec o = k
      · have hof : ordersFor k (o :: rest) = o :: ordersFor k rest := by
          simp [ordersFor, List.filter_cons, helig.1, helig.2, hkey]
        rw [hof]
        unfold addOrderToMap
        rw [if_pos helig, customerKey_eq_spec, hkey, mapLookup_upsert_self]
        cases h : mapLookup k acc with
        | none => simp [sumAmounts]
        | some e =>
          simp only [sumAmounts, List.map_cons, List.sum_cons]
          rw [add_assoc]
      · have hof : ordersFor k (o :: rest) = ordersFor k rest := by
          simp [ordersFor, List.filter_cons, hkey]
        rw [hof]
        unfold addOrderToMap
        rw [if_pos helig, customerKey_eq_spec,
          mapLookup_upsert_ne acc k (customerKeySpec o) o hkey]
    · have hcond : ¬(o.customerName ≠ "" ∧ o.customerPhone ≠ "" ∧
          customerKeySpec o = k) := fun ⟨ha, hb, _⟩ => helig ⟨ha, hb⟩
      have hof : ordersFor k (o :: rest) = ordersFor k rest := by
        simp [ordersFor, List.filter_cons, hcond]
      rw [hof]
      unfold addOrderToMap
      rw [if_neg helig]

/-- C5: the customer aggregation contains a key exactly when some order
with a non-empty name and a non-empty phone maps to it under the key
`lowercase(trim(name)) + ':' + phone`; that key's totalSpend is the exact
sum of `totalAmount` over those orders, and its display name is the
original-case name of the first-encountered such order.  Orders missing
name or phone are excluded entirely.  Consequently two orders whose names
differ only by letter case or surrounding whitespace and that share a
phone collapse into a single entry. -/
theorem customerAggregation (orders : List Order) (k : String) :
    (mapLookup k (customerMap orders) = none ↔ ordersFor k orders = []) ∧
    (∀ e, mapLookup k (customerMap orders) = some e →
      e.total = sumAmounts (ordersFor k orders) ∧
      ∃ o rest, ordersFor k orders = o :: rest ∧ e.name = o.customerName) := by
  have h := customerMap_fold orders [] k
  rw [show mapLookup k ([] : List (String × CustomerEntry)) = none from rfl] at h
  unfold customerMap
  constructor
  · rw [h]
    cases ho : ordersFor k orders with
    | nil => simp
    | cons o rest => simp
  · intro e he
    rw [h] at he
    cases ho : ordersFor k orders with
    | nil =>
      rw [ho] at he
      simp at he
    | cons o rest =>
      rw [ho] at he
      simp only [Option.some.injEq] at he
      refine ⟨?_, o, rest, rfl, ?_⟩
      · rw [← he]
        simp [sumAmounts]
      · rw [← he]

/-- The case/whitespace-variant pair from the spec's example. -/
def exPriyaOrders : List Order :=
  [⟨"Priya Sharma", "9876543210", 1200⟩, ⟨" priya sharma ", "9876543210", 800⟩]

def priyaKey : String := "priya sharma:9876543210"

/-- Witness for C5: the two variant orders collapse into one entry whose
display name keeps the first order's case and whose total is the sum. -/
theorem customerAggregation_witness :
    mapLookup priyaKey (customerMap exPriyaOrders) =
      some ⟨"Priya Sharma", 2000⟩ ∧
    (⟨"Priya Sharma", 2000⟩ : CustomerEntry).total =
      sumAmounts (ordersFor priyaKey exPriyaOrders) := by
  have hm : mapLookup priyaKey (customerMap exPriyaOrders) =
      some ⟨"Priya Sharma", 2000⟩ := by
    norm_num +decide [customerMap, addOrderToMap, mapUpsert, customerKey,
      jsTrimStr, jsLowerStr, jsTrimList, mapLookup, exPriyaOrders, priyaKey]
  exact ⟨hm, ((customerAggregation exPriyaOrders priyaKey).2 _ hm).1⟩

/-- One step of the `topCustomerEntry` reduce: strict improvement only. -/
def topCustomerStep (max cur : CustomerEntry) : CustomerEntry :=
  if cur.total > max.total then cur else max

/-- `topCustomerEntry` (`OrderManagement.tsx` lines 381-383): reduce over
the map's values with the sentinel `{ name: 'N/A', total: 0 }`. -/
def topCustomerEntry (vals : List CustomerEntry) : CustomerEntry :=
  vals.foldl topCustomerStep ⟨"N/A", 0⟩

theorem topFold_all_le (vals : List CustomerEntry) :
    ∀ m0, (∀ e ∈ vals, e.total ≤ m0.total) →
      vals.foldl topCustomerStep m0 = m0 := by
  induction vals with
  | nil => intro m0 _; rfl
  | cons v rest ih =>
    intro m0 hall
    rw [List.foldl_cons]
    have hv : v.total ≤ m0.total := hall v (List.mem_cons_self _ _)
    have hstep : topCustomerStep m0 v = m0 := by
      unfold topCustomerStep
      rw [if_neg (not_lt.mpr hv)]
    rw [hstep]
    exact ih m0 (fun e he => hall e (List.mem_cons_of_mem _ he))

theorem topFold_mem (vals : List CustomerEntry) :
    ∀ m0, vals.foldl topCustomerStep m0 = m0 ∨
      (vals.foldl topCustomerStep m0 ∈ vals ∧
        m0.total < (vals.foldl topCustomerStep m0).total) := by
  induction vals with
  | nil => intro m0; exact Or.inl rfl
  | cons v rest ih =>
    intro m0
    rw [List.foldl_cons]
    have hstep : topCustomerStep m0 v = if v.total > m0.total then v else m0 := rfl
    rw [hstep]
    by_cases hv : v.total > m0.total
    · rw [if_pos hv]
      rcases ih v with h | ⟨hmem, hlt⟩
      · refine Or.inr ⟨?_, ?_⟩
        · rw [h]; exact List.mem_cons_self _ _
        · rw [h]; exact hv
      · exact Or.inr ⟨List.mem_cons_of_mem _ hmem, lt_trans hv hlt⟩
    · rw [if_neg hv]
      rcases ih m0 with h | ⟨hmem, hlt⟩
      · exact Or.inl h
      · exact Or.inr ⟨List.mem_cons_of_mem _ hmem, hlt⟩

theorem topFold_ge (vals : List CustomerEntry) :
    ∀ m0, m0.total ≤ (vals.foldl topCustomerStep m0).total ∧
      ∀ e ∈ vals, e.total ≤ (vals.foldl topCustomerStep m0).total := by
  induction vals with
  | nil =>
    intro m0
    exact ⟨le_refl _, by simp⟩
  | cons v rest ih =>
    intro m0
    rw [List.foldl_cons]
    have hstep : topCustomerStep m0 v = if v.total > m0.total then v else m0 := rfl
    rw [hstep]
    by_cases hv : v.total > m0.total
    · rw [if_pos hv]
      obtain ⟨h1, h2⟩ := ih v
      refine ⟨le_trans (le_of_lt hv) h1, ?_⟩
      intro e he
      rcases List.mem_cons.mp he with rfl | he
      · exact h1
      · exact h2 e he
    · rw [if_neg hv]
      obtain ⟨h1, h2⟩ := ih m0
      refine ⟨h1, ?_⟩
      intro e he
      rcases List.mem_cons.mp he with rfl | he
      · exact le_trans (not_lt.mp hv) h1
      · exact h2 e he

theorem topFold_first (vals : List CustomerEntry) :
    ∀ m0, vals.foldl topCustomerStep m0 ≠ m0 →
      ∃ pre post, vals = pre ++ (vals.foldl topCustomerStep m0) :: post ∧
        ∀ p ∈ pre, p.total < (vals.foldl topCustomerStep m0).total := by
  induction vals with
  | nil => intro m0 h; exact absurd rfl h
  | cons v rest ih =>
    intro m0 hne
    rw [List.foldl_cons] at hne ⊢
    have hstep : topCustomerStep m0 v = if v.total > m0.total then v else m0 := rfl
    rw [hstep] at hne ⊢
    by_cases hv : v.total > m0.total
    · rw [if_pos hv] at hne ⊢
      by_cases hr : rest.foldl topCustomerStep v = v
      · rw [hr]
        exact ⟨[], rest, rfl, by simp⟩
      · obtain ⟨pre, post, heq, hpre⟩ := ih v hr
        refine ⟨v :: pre, post, by rw [List.cons_append, ← heq], ?_⟩
        intro p hp
        have hlt2 : v.total < (rest.foldl topCustomerStep v).total := by
          rcases topFold_mem rest v with h | ⟨_, hlt⟩
          · exact absurd h hr
          · exact hlt
        rcases List.mem_cons.mp hp with heq2 | hp
        · rw [heq2]; exact hlt2
        · exact hpre p hp
    · rw [if_neg hv] at hne ⊢
      obtain ⟨pre, post, heq, hpre⟩ := ih m0 hne
      refine ⟨v :: pre, post, by rw [List.cons_append, ← heq], ?_⟩
      intro p hp
      have hlt2 : m0.total < (rest.foldl topCustomerStep m0).total := by
        rcases topFold_mem rest m0 with h | ⟨_, hlt⟩
        · exact absurd h hne
        · exact hlt
      rcases List.mem_cons.mp hp with heq2 | hp
      · rw [heq2]; exact lt_of_le_of_lt (not_lt.mp hv) hlt2
      · exact hpre p hp

/-- C10: if the aggregated customer map is non-empty but every accumulated
total is at most 0, `topCustomerEntry` returns the sentinel
`{name: 'N/A', total: 0}`; any non-sentinel result is an actual map value
with a strictly positive total; the result's total dominates every value;
and ties among equal maximal totals resolve to the first-encountered
entry (everything before the returned entry is strictly smaller). -/
theorem topCustomer_rule (orders : List Order) :
    ((customerMap orders).map Prod.snd ≠ [] →
      (∀ e ∈ (customerMap orders).map Prod.snd, e.total ≤ 0) →
      topCustomerEntry ((customerMap orders).map Prod.snd) = ⟨"N/A", 0⟩) ∧
    (topCustomerEntry ((customerMap orders).map Prod.snd) ≠ ⟨"N/A", 0⟩ →
      topCustomerEntry ((customerMap orders).map Prod.snd) ∈
        (customerMap orders).map Prod.snd ∧
      0 < (topCustomerEntry ((customerMap orders).map Prod.snd)).total) ∧
    (∀ e ∈ (customerMap orders).map Prod.snd,
      e.total ≤ (topCustomerEntry ((customerMap orders).map Prod.snd)).total) ∧
    (topCustomerEntry ((customerMap orders).map Prod.snd) ≠ ⟨"N/A", 0⟩ →
      ∃ pre post, (customerMap orders).map Prod.snd =
        pre ++ topCustomerEntry ((customerMap orders).map Prod.snd) :: post ∧
        ∀ p ∈ pre,
          p.total < (topCustomerEntry ((customerMap orders).map Prod.snd)).total) := by
  refine ⟨?_, ?_, ?_, ?_⟩
  · intro _ hall
    exact topFold_all_le _ ⟨"N/A", 0⟩ hall
  · intro hne
    rcases topFold_mem ((customerMap orders).map Prod.snd) ⟨"N/A", 0⟩ with h | ⟨hmem, hlt⟩
    · exact absurd h hne
    · exact ⟨hmem, hlt⟩
  · exact (topFold_ge _ ⟨"N/A", 0⟩).2
  · intro hne
    exact topFold_first _ ⟨"N/A", 0⟩ hne

/-- Two customers who both spent exactly zero. -/
def exZeroOrders : List Order :=
  [⟨"Asha", "111", 0⟩, ⟨"Bela", "222", 0⟩]

/-- Witness for C10: with a non-empty map whose totals are all zero, the
sentinel is returned. -/
theorem topCustomer_rule_witness :
    topCustomerEntry ((customerMap exZeroOrders).map Prod.snd) = ⟨"N/A", 0⟩ := by
  exact (topCustomer_rule exZeroOrders).1 (by decide) (by decide)

/-! ### Table Processor sort (`InventoryManagement.tsx` lines 238-252 and
`OrderManagement.tsx` lines 170-185)

Both components sort with the same comparator over `a[sortConfig.key]`:
records with `undefined` at the key compare after all defined values, two
`undefined` records compare equal, and otherwise the natural order of the
values is used, flipped for descending.  The comparator is modelled
generically over a record type `α` with a key accessor `α → Option V`. -/

inductive SortDirection : Type
  | ascending
  | descending
deriving DecidableEq, Repr

/-- The comparator of `processedItems` / `processedOrders`: `undefined`
checks first, then value comparison with the direction applied. -/
def jsCompareKey {α V : Type} [LinearOrder V] (key : α → Option V)
    (dir : SortDirection) (a b : α) : Int :=
  match key a, key b with
  | none, none => 0
  | none, some _ => 1
  | some _, none => -1
  | some x, some y =>
    if x < y then (if dir = .ascending then -1 else 1)
    else if y < x then (if dir = .ascending then 1 else -1)
    else 0

/-- The "may come before" relation induced by the comparator. -/
def tableLe {α V : Type} [LinearOrder V] (key : α → Option V)
    (dir : SortDirection) (a b : α) : Prop :=
  jsCompareKey key dir a b ≤ 0

instance {α V : Type} [LinearOrder V] (key : α → Option V)
    (dir : SortDirection) : DecidableRel (tableLe key dir) := fun a b =>
  inferInstanceAs (Decidable (jsCompareKey key dir a b ≤ 0))

theorem tableLe_iff {α V : Type} [LinearOrder V] (key : α → Option V)
    (dir : SortDirection) (a b : α) :
    tableLe key dir a b ↔
      (key b = none ∨ ∃ x y, key a = some x ∧ key b = some y ∧
        (if dir = .ascending then x ≤ y else y ≤ x)) := by
  unfold tableLe jsCompareKey
  cases ha : key a with
  | none =>
    cases hb : key b with
    | none => simp
    | some y => simp
  | some x =>
    cases hb : key b with
    | none => simp
    | some y =>
      rcases lt_trichotomy x y with h | h | h
      · cases dir <;> simp [h, le_of_lt h, not_le.mpr h]
      · subst h
        cases dir <;> simp
      · cases dir <;> simp [h, not_lt.mpr (le_of_lt h), le_of_lt h, not_le.mpr h]

theorem tableLe_total {α V : Type} [LinearOrder V] (key : α → Option V)
    (dir : SortDirection) (a b : α) : tableLe key dir a b ∨ tableLe key dir b a := by
  rw [tableLe_iff, tableLe_iff]
  cases ha : key a with
  | none => exact Or.inr (Or.inl rfl)
  | some x =>
    cases hb : key b with
    | none => exact Or.inl (Or.inl rfl)
    | some y =>
      cases dir
      · rcases le_total x y with h | h
        · exact Or.inl (Or.inr ⟨x, y, rfl, rfl, by simpa using h⟩)
        · exact Or.inr (Or.inr ⟨y, x, rfl, rfl, by simpa using h⟩)
      · rcases le_total x y with h | h
        · exact Or.inr (Or.inr ⟨y, x, rfl, rfl, by simpa using h⟩)
        · exact Or.inl (Or.inr ⟨x, y, rfl, rfl, by simpa using h⟩)

theorem tableLe_trans {α V : Type} [LinearOrder V] (key : α → Option V)
    (dir : SortDirection) (a b c : α) (hab : tableLe key dir a b)
    (hbc : tableLe key dir b c) : tableLe key dir a c := by
  rw [tableLe_iff] at hab hbc ⊢
  rcases hbc with hc | ⟨x, y, hbx, hcy, hxy⟩
  · exact Or.inl hc
  · rcases hab with hb | ⟨u, v, hau, hbv, huv⟩
    · rw [hb] at hbx
      exact absurd hbx (by simp)
    · rw [hbx] at hbv
      injection hbv with hxv
      refine Or.inr ⟨u, y, hau, hcy, ?_⟩
      cases dir
      · simp only [reduceIte] at hxy huv ⊢
        exact le_trans huv (hxv ▸ hxy)
      · simp only [reduceCtorEq, reduceIte] at hxy huv ⊢
        exact le_trans hxy (hxv ▸ huv)

/-- The sort step of the Table Processor: JavaScript's stable sort with
the comparator, modelled by stable insertion sort on `tableLe`. -/
def jsSortByKey {α V : Type} [LinearOrder V] (key : α → Option V)
    (dir : SortDirection) (l : List α) : List α :=
  List.insertionSort (tableLe key dir) l

/-- C9: in the sorted output, every record whose value at the sort key is
`undefined` is placed after all records with defined values — once an
undefined record appears, everything after it is undefined too — in both
directions; and two records both undefined at the key compare as equal
(comparator value 0). -/
theorem tableSort_undefined_last {α V : Type} [LinearOrder V]
    (key : α → Option V) (dir : SortDirection) (l : List α) :
    (jsSortByKey key dir l).Pairwise (fun a b => key a = none → key b = none) ∧
    (∀ a b, key a = none → key b = none → jsCompareKey key dir a b = 0) := by
  constructor
  · haveI : IsTotal α (tableLe key dir) := ⟨tableLe_total key dir⟩
    haveI : IsTrans α (tableLe key dir) := ⟨tableLe_trans key dir⟩
    have hs : (jsSortByKey key dir l).Pairwise (tableLe key dir) :=
      List.sorted_insertionSort (tableLe key dir) l
    refine hs.imp ?_
    intro a b hab ha
    rw [tableLe_iff] at hab
    rcases hab with hb | ⟨x, y, hax, _, _⟩
    · exact hb
    · rw [ha] at hax
      exact absurd hax (by simp)
  · intro a b ha hb
    unfold jsCompareKey
    rw [ha, hb]

/-- Witness for C9: two records with undefined keys compare equal, at the
identity key on `Option ℤ`. -/
theorem tableSort_undefined_last_witness :
    jsCompareKey (fun x : Option ℤ => x) SortDirection.ascending none none = 0 := by
  exact (tableSort_undefined_last (fun x : Option ℤ => x) SortDirection.ascending
    []).2 none none rfl rfl

end Vayapari
